import Mathlib

/-!
Verification development for the code2context (c2c) repository.

The definitions below are a shallow embedding of the Go sources:
  - internal/filefilter/filefilter.go   (FilterConfig, FileFilter, IsExcluded)
  - internal/processor/processor.go     (compileAndCacheGitIgnore, Process walk)
  - internal/processor (tree builder)   (BuildTreeString, buildNodeRecursive,
                                         writeNodeRecursive)

Paths are modelled as lists of path segments; an absolute path is the
base path (segments) followed by the path relative to the traversal root.
File metadata is modelled by explicit structures mirroring fs.DirEntry and
fs.FileInfo, including the possibility that DirEntry.Info() fails.
-/

namespace C2C

/-! ## Character and string helpers (kernel-computable models of the Go
string functions used by the filter: strings.ToLower, filepath.Ext,
byte-wise string comparison, strings.HasPrefix, glob matching). -/

/-- Model of strings.ToLower restricted to per-character lowering. -/
def lowerStr (s : String) : String := String.mk (s.data.map Char.toLower)

/-- Byte-wise (code-point-wise) less-or-equal on character lists, the order
os.ReadDir uses to sort directory entries by name. -/
def charLe : List Char → List Char → Bool
  | [], _ => true
  | _ :: _, [] => false
  | a :: as, b :: bs => if a == b then charLe as bs else decide (a < b)

/-- Byte-wise (code-point-wise) strict less-than on character lists. -/
def charLt : List Char → List Char → Bool
  | [], [] => false
  | [], _ :: _ => true
  | _ :: _, [] => false
  | a :: as, b :: bs => if a == b then charLt as bs else decide (a < b)

/-- Model of strings.HasPrefix on character lists. -/
def charIsPrefixOf : List Char → List Char → Bool
  | [], _ => true
  | _ :: _, [] => false
  | a :: as, b :: bs => a == b && charIsPrefixOf as bs

/-- strings.HasPrefix s pre. -/
def hasPrefixStr (s pre : String) : Bool := charIsPrefixOf pre.data s.data

/-- Helper for the glob star case: try to match the continuation at every
suffix of the input, never letting the star consume a path separator. -/
def starLoop (k : List Char → Bool) : List Char → Bool
  | [] => k []
  | c :: cs => k (c :: cs) || (c != '/' && starLoop k cs)

/-- Modelled from the spec: the glob dialect used by the repository
(filepath.Match for user patterns and lock-file patterns, and the compiled
gitignore pattern language of the external go-gitignore dependency, neither
of which is part of this repository's sources). A star matches any run of
non-separator characters, a question mark one non-separator character, and
every other character matches itself. -/
def globMatch : List Char → List Char → Bool
  | [], s => s.isEmpty
  | '*' :: ps, s => starLoop (globMatch ps) s
  | '?' :: _, [] => false
  | '?' :: ps, _ :: cs => globMatch ps cs
  | _ :: _, [] => false
  | ch :: ps, c :: cs => ch == c && globMatch ps cs

/-- Glob matching on strings. -/
def globMatchStr (pat s : String) : Bool := globMatch pat.data s.data

/-- Model of filepath.Ext applied to a base name: the suffix starting at the
final dot, or the empty string when the name has no dot. -/
def extAux : List Char → Option (List Char)
  | [] => none
  | '.' :: cs =>
    match extAux cs with
    | some r => some r
    | none => some ('.' :: cs)
  | _ :: cs => extAux cs

/-- filepath.Ext on a base name. -/
def pathExt (name : String) : String :=
  match extAux name.data with
  | some r => String.mk r
  | none => ""

/-! ## Gitignore matchers

The compiled matcher type comes from the external go-gitignore dependency,
whose sources are not part of this repository. -/

/-- One line of a .gitignore file: an optional leading bang (negation)
followed by a glob pattern. -/
structure IgnoreLine where
  negated : Bool
  pattern : String
  deriving DecidableEq

/-- Modelled from the spec: a compiled .gitignore matcher of the external
go-gitignore dependency (not part of this repository's sources). It holds
the ordered pattern list of one .gitignore file. -/
structure GitIgnore where
  lines : List IgnoreLine
  deriving DecidableEq

/-- Modelled from the spec: whether one gitignore line matches a path.
A pattern without a separator applies at any depth, so it is matched
against every path segment; a pattern with a separator is matched against
the joined path. -/
def lineMatches (pat : String) (segs : List String) : Bool :=
  if pat.data.contains '/' then globMatchStr pat (String.intercalate "/" segs)
  else segs.any (fun seg => globMatchStr pat seg)

/-- Modelled from the spec: MatchesPath of the external go-gitignore
dependency. Within one file the last matching pattern wins; a negated final
match reports the path as not ignored. -/
def GitIgnore.MatchesPath (g : GitIgnore) (segs : List String) : Bool :=
  g.lines.foldl (fun acc l => if lineMatches l.pattern segs then !l.negated else acc) false

/-! ## Filter configuration and metadata (filefilter.go) -/

/-- FilterConfig from filefilter.go. The output file path is kept as an
optional absolute segment path; none models the empty string. -/
structure FilterConfig where
  maxFileSize : Nat
  userExcludeDirs : List String
  userExcludeExts : List String
  userExcludeGlobs : List String
  skipAuxFiles : Bool
  defaultExcludeDirs : List String
  defaultMediaExts : List String
  defaultArchiveExts : List String
  defaultExecExts : List String
  defaultLockfilePatterns : List String
  defaultMiscellaneousFileNames : List String
  defaultMiscellaneousExtensions : List String
  defaultAuxExts : List String
  finalOutputFilePath : Option (List String)
  deriving DecidableEq

/-- FileFilter from filefilter.go: the configuration, the absolute base
path of the traversal root (as segments, ending in the root directory's
name), and the host platform flag read from runtime.GOOS. -/
structure FileFilter where
  config : FilterConfig
  basePath : List String
  goosWindows : Bool
  deriving DecidableEq

/-- The file mode and size portion of fs.FileInfo used by the filter. -/
structure FileInfo where
  size : Nat
  modeIsDir : Bool
  modeSymlink : Bool
  modePerm : Nat
  deriving DecidableEq

/-- Result of fs.DirEntry.Info(): success, a does-not-exist error (the
broken-symlink case), or any other error. -/
inductive InfoResult where
  | ok (info : FileInfo)
  | errNotExist
  | errOther
  deriving DecidableEq

/-- The parts of fs.DirEntry consulted by IsExcluded: the symlink bit of
Type() and the Info() result. -/
structure DirEntry where
  typeSymlink : Bool
  info : InfoResult
  deriving DecidableEq

/-- Which return site of IsExcluded produced an exclusion. Each constructor
corresponds to one rule of filefilter.go, in source order. -/
inductive Rule where
  | outputSelf
  | brokenSymlink
  | symlink
  | dirName
  | gitignore
  | maxSize
  | userExt
  | userGlob
  | execPerm
  | execExt
  | execNoExt
  | media
  | archive
  | lockfile
  | miscExt
  | miscName
  | aux
  deriving DecidableEq

/-- Outcome of IsExcluded: ok r skipDir models the Go return value
(r.isSome, err) where err is filepath.SkipDir when skipDir is true and nil
otherwise; fail models a genuine error return (false, non-nil error). -/
inductive FilterOutcome where
  | ok (rule : Option Rule) (skipDir : Bool)
  | fail
  deriving DecidableEq

/-- The boolean component of the Go return value. -/
def FilterOutcome.isExcludedB : FilterOutcome → Bool
  | .ok r _ => r.isSome
  | .fail => false

/-- The auxiliary-file test of rule 10 of IsExcluded: dotted patterns match
the (lowered) extension exactly, patterns with glob metacharacters are
glob-matched against the base name, and other patterns match the lowered
base name exactly, or as a prefix for the fixed list of project-meta
names. -/
def isAuxFile (auxExts : List String) (fileExt baseName : String) : Bool :=
  let lowerBaseName := lowerStr baseName
  auxExts.any fun auxPat =>
    if hasPrefixStr auxPat "." then fileExt == auxPat
    else if auxPat.data.contains '*' || auxPat.data.contains '?' then
      globMatchStr auxPat baseName
    else
      lowerBaseName == lowerStr auxPat ||
      (hasPrefixStr lowerBaseName (lowerStr auxPat) &&
        (auxPat == "README" || auxPat == "LICENSE" || auxPat == "COPYING" ||
         auxPat == "NOTICE" || auxPat == "AUTHORS" || auxPat == "CHANGELOG" ||
         auxPat == "CONTRIBUTING" || auxPat == "MANIFEST"))

/-- IsExcluded from filefilter.go. rel is the path of the entry relative
to the traversal root as segments (empty for the root itself); the
absolute path is basePath ++ rel. activeGitIgnores is ordered from the
root-most matcher to the most specific one, as in the Go code. -/
def relPathStr (rel : List String) : String :=
  if rel.isEmpty then "." else String.intercalate "/" rel

/-- The ordered file-only rule chain of IsExcluded (rules 3 to 10 of
filefilter.go) as a list of rule tags paired with their tests, in source
order; the first-match-wins evaluation of the Go early returns is
firstMatching below. The extension is lowered as in the Go code. -/
def fileRuleConds (ff : FileFilter) (relStr baseName : String) (info : FileInfo) :
    List (Rule × Bool) :=
  -- 3. Max file size (strict inequality, zero means unlimited).
  [(.maxSize, decide (0 < ff.config.maxFileSize) &&
      decide (ff.config.maxFileSize < info.size)),
  -- 4. User-defined excluded extensions.
   (.userExt, ff.config.userExcludeExts.any
      (fun e => e != "" && lowerStr (pathExt baseName) == e)),
  -- 5. User-defined excluded glob patterns.
   (.userGlob, ff.config.userExcludeGlobs.any
      (fun p => p != "" && (globMatchStr p relStr || globMatchStr p baseName))),
  -- 6. Executable check: POSIX bits on non-Windows, then extensions.
   (.execPerm, !ff.goosWindows && (info.modePerm.land 0o111 != 0)),
   (.execExt, ff.config.defaultExecExts.any
      (fun e => lowerStr (pathExt baseName) == e)),
   (.execNoExt, lowerStr (pathExt baseName) == "" && !ff.goosWindows &&
      (info.modePerm.land 0o111 != 0)),
  -- 7. Media extensions.
   (.media, ff.config.defaultMediaExts.any
      (fun e => lowerStr (pathExt baseName) == e)),
  -- 8. Archive extensions.
   (.archive, ff.config.defaultArchiveExts.any
      (fun e => lowerStr (pathExt baseName) == e)),
  -- 9. Lock file patterns (matched against the base name).
   (.lockfile, ff.config.defaultLockfilePatterns.any
      (fun p => globMatchStr p baseName)),
  -- 9b. Miscellaneous extensions.
   (.miscExt, ff.config.defaultMiscellaneousExtensions.any
      (fun e => lowerStr (pathExt baseName) == e)),
  -- 9c. Miscellaneous file names.
   (.miscName, ff.config.defaultMiscellaneousFileNames.any
      (fun nm => baseName == nm)),
  -- 10. Auxiliary files (opt-in).
   (.aux, ff.config.skipAuxFiles &&
      isAuxFile ff.config.defaultAuxExts (lowerStr (pathExt baseName)) baseName)]

/-- First-match-wins over an ordered rule list: the tag of the first rule
whose test holds, none when no rule fires. -/
def firstMatching (l : List (Rule × Bool)) : Option Rule :=
  (l.find? (fun rc => rc.2)).map (fun rc => rc.1)

/-- The file-only portion of IsExcluded: the first file rule that fires,
none when the file survives every rule. -/
def fileRule? (ff : FileFilter) (relStr baseName : String) (info : FileInfo) :
    Option Rule :=
  firstMatching (fileRuleConds ff relStr baseName info)

/-- IsExcluded from filefilter.go. rel is the path of the entry relative
to the traversal root as segments (empty for the root itself); the
absolute path is basePath ++ rel. activeGitIgnores is ordered from the
root-most matcher to the most specific one, as in the Go code. -/
def IsExcluded (ff : FileFilter) (rel : List String) (d : DirEntry)
    (activeGitIgnores : List GitIgnore) : FilterOutcome :=
  -- 0. Highest priority: never include the output file itself.
  if ff.config.finalOutputFilePath == some (ff.basePath ++ rel) then
    .ok (some .outputSelf) false
  else
    match d.info with
    | .errNotExist =>
      -- Broken symlinks are excluded silently; other stat failures surface.
      if d.typeSymlink then .ok (some .brokenSymlink) false else .fail
    | .errOther => .fail
    | .ok info =>
      -- 0b. Symbolic links are always excluded.
      if info.modeSymlink then .ok (some .symlink) false
      -- 1. Default and user-defined directory name exclusions.
      else if info.modeIsDir &&
          (ff.config.defaultExcludeDirs ++ ff.config.userExcludeDirs).any
            (fun ex => (ff.basePath ++ rel).getLastD "" == ex) then
        .ok (some .dirName) true
      -- 2. Gitignore check, scanning the most specific matcher first.
      else if (activeGitIgnores.reverse).any
          (fun m => m.MatchesPath (ff.basePath ++ rel)) then
        .ok (some .gitignore) info.modeIsDir
      -- Directories pass all remaining (file-only) rules.
      else if info.modeIsDir then .ok none false
      else .ok (fileRule? ff (relPathStr rel) ((ff.basePath ++ rel).getLastD "") info) false

/-! ## The gitignore matcher cache (processor.go, compileAndCacheGitIgnore) -/

/-- State of a directory's .gitignore file on disk: absent, present but
failing to compile, present and compiling to a matcher, or un-statable for
a reason other than non-existence. -/
inductive GitIgnoreFile where
  | absent
  | broken
  | valid (g : GitIgnore)
  | statError
  deriving DecidableEq

/-- The filesystem as seen by the cache: the state of the file at each
.gitignore path. -/
def IgnoreFS := String → GitIgnoreFile

/-- The processor's gitIgnoreCache map, keyed by the absolute path of the
.gitignore file. An entry some none is the cached no-matcher marker. -/
abbrev GitIgnoreCache := List (String × Option GitIgnore)

/-- Result of one compileAndCacheGitIgnore call: the returned matcher (none
models a nil matcher), the returned error (the Go function always returns
nil), the updated cache, and whether the filesystem was touched. -/
structure CompileResult where
  matcher : Option GitIgnore
  err : Option String
  cache : GitIgnoreCache
  touchedFS : Bool
  deriving DecidableEq

/-- compileAndCacheGitIgnore from processor.go. Looks up the cache first
and returns without touching the filesystem on a hit; otherwise stats and
compiles the file, caching the matcher on success and the no-matcher
marker when the file is absent, un-statable, or fails to compile. -/
def compileAndCacheGitIgnore (fs : IgnoreFS) (cache : GitIgnoreCache)
    (dirPath : String) : CompileResult :=
  let gitIgnorePath := dirPath ++ "/.gitignore"
  match cache.lookup gitIgnorePath with
  | some m => ⟨m, none, cache, false⟩
  | none =>
    match fs gitIgnorePath with
    | .valid g => ⟨some g, none, (gitIgnorePath, some g) :: cache, true⟩
    | .broken => ⟨none, none, (gitIgnorePath, none) :: cache, true⟩
    | .absent => ⟨none, none, (gitIgnorePath, none) :: cache, true⟩
    | .statError => ⟨none, none, (gitIgnorePath, none) :: cache, true⟩

/-! ## The source tree model and the two traversals

FSEntry models the filesystem subtree under the traversal root. A
directory carries the matcher its .gitignore compiles to (none when it has
no usable .gitignore); entries are regular files or directories, the only
shapes the membership claims quantify over. -/

/-- A file (name, size, permission bits) or a directory (name, compiled
.gitignore matcher if any, children). -/
inductive FSEntry where
  | file (name : String) (size : Nat) (perm : Nat)
  | dir (name : String) (gitignore : Option GitIgnore) (children : List FSEntry)

/-- The entry's name. -/
def FSEntry.name : FSEntry → String
  | .file n _ _ => n
  | .dir n _ _ => n

/-- Whether the entry is a directory. -/
def FSEntry.isDirB : FSEntry → Bool
  | .file _ _ _ => false
  | .dir _ _ _ => true

/-- The fs.DirEntry a regular file presents to the filter. -/
def fileDirEntry (size perm : Nat) : DirEntry :=
  ⟨false, .ok ⟨size, false, false, perm⟩⟩

/-- The fs.DirEntry a directory presents to the filter. -/
def dirDirEntry : DirEntry := ⟨false, .ok ⟨0, true, false, 0o755⟩⟩

/-- The order os.ReadDir lists a directory: ascending byte-wise by name.
filepath.WalkDir visits children in this order. -/
def readDirLe (a b : FSEntry) : Prop := charLe a.name.data b.name.data = true

instance : DecidableRel readDirLe := fun a b => by unfold readDirLe; infer_instance

/-- Children in the order filepath.WalkDir visits them. -/
def readDirSorted (cs : List FSEntry) : List FSEntry := List.insertionSort readDirLe cs

/-- The strict comparison of the tree builder's sort.Slice call:
directories before files, then byte-wise on the lowered names. -/
def treeLess (a b : FSEntry) : Bool :=
  if a.isDirB != b.isDirB then a.isDirB
  else charLt (lowerStr a.name).data (lowerStr b.name).data

/-- The total order induced by treeLess (a before b unless b must come
strictly earlier), used to model the unstable sort.Slice. -/
def treeLe (a b : FSEntry) : Prop := (!treeLess b a) = true

instance : DecidableRel treeLe := fun a b => by unfold treeLe; infer_instance

/-- Children in the order the tree builder displays them. -/
def sortForTree (cs : List FSEntry) : List FSEntry := List.insertionSort treeLe cs

/-- The walk of Process (processor.go): visit an entry whose path relative
to the root is rel, with stack the active matchers from the root down to
the entry's parent directory. Returns the relative paths of the files
whose contents are emitted, in emission order. When deciding a directory,
the walk rebuilds the matcher stack from the directory itself upward, so
the directory's own matcher is part of the stack; children are visited in
os.ReadDir order. A filter error on a directory leaves descent to WalkDir
(the callback returns nil), and a filter error on a file skips it. -/
def walkEntry (ff : FileFilter) (stack : List GitIgnore) (rel : List String) :
    FSEntry → List (List String)
  | .file _ size perm =>
    match IsExcluded ff rel (fileDirEntry size perm) stack with
    | .ok none _ => [rel]
    | .ok (some _) _ => []
    | .fail => []
  | .dir _ gi children =>
    let stackD := stack ++ gi.toList
    match IsExcluded ff rel dirDirEntry stackD with
    | .ok (some _) _ => []
    | _ =>
      (readDirSorted children).attach.flatMap
        (fun c => walkEntry ff stackD (rel ++ [c.1.name]) c.1)
termination_by e => sizeOf e
decreasing_by
  simp only [FSEntry.dir.sizeOf_spec]
  have := List.sizeOf_lt_of_mem ((List.perm_insertionSort _ _).mem_iff.mp c.2)
  omega

/-- Process (processor.go): the root directory is visited first with the
stack holding just the root's own matcher; if it is excluded the whole
walk is skipped, otherwise the children are walked. rootGi is the matcher
of the root's .gitignore, rootChildren the root's entries. -/
def processWalk (ff : FileFilter) (rootGi : Option GitIgnore)
    (rootChildren : List FSEntry) : List (List String) :=
  let st := rootGi.toList
  match IsExcluded ff [] dirDirEntry st with
  | .ok (some _) _ => []
  | _ => (readDirSorted rootChildren).flatMap (fun c => walkEntry ff st [c.name] c)

/-- A node of the rendered tree: name, directory flag, children. -/
inductive TreeNode where
  | mk (name : String) (isDir : Bool) (children : List TreeNode)

/-- The node's name. -/
def TreeNode.name : TreeNode → String
  | .mk n _ _ => n

/-- The node's directory flag. -/
def TreeNode.isDir : TreeNode → Bool
  | .mk _ d _ => d

/-- The node's children. -/
def TreeNode.children : TreeNode → List TreeNode
  | .mk _ _ cs => cs

/-- One entry of buildNodeRecursive's loop (tree builder): decide the
child at relative path rel ++ [name] with current the active matchers
down to (and including) the PARENT directory; an accepted file becomes a
leaf, an accepted directory recurses with its own matcher appended, and an
excluded or erroring entry produces no node. -/
def buildChild (ff : FileFilter) (current : List GitIgnore) (rel : List String) :
    FSEntry → Option TreeNode
  | .file n size perm =>
    match IsExcluded ff (rel ++ [n]) (fileDirEntry size perm) current with
    | .ok none _ => some (.mk n false [])
    | _ => none
  | .dir n gi children =>
    match IsExcluded ff (rel ++ [n]) dirDirEntry current with
    | .ok none _ =>
      some (.mk n true
        ((sortForTree children).attach.filterMap
          (fun c => buildChild ff (current ++ gi.toList) (rel ++ [n]) c.1)))
    | _ => none
termination_by e => sizeOf e
decreasing_by
  simp only [FSEntry.dir.sizeOf_spec]
  have := List.sizeOf_lt_of_mem ((List.perm_insertionSort _ _).mem_iff.mp c.2)
  omega

/-- BuildTreeString's root handling: the root node's children are built
from the root directory's entries with the stack holding just the root's
own matcher; the root itself is never passed through the filter. -/
def buildRootChildren (ff : FileFilter) (rootGi : Option GitIgnore)
    (rootChildren : List FSEntry) : List TreeNode :=
  (sortForTree rootChildren).filterMap (buildChild ff rootGi.toList [])

/-- The relative paths of the files shown in a rendered tree node. -/
def nodeFiles (rel : List String) : TreeNode → List (List String)
  | .mk n false _ => [rel ++ [n]]
  | .mk n true cs =>
    cs.attach.flatMap (fun c => nodeFiles (rel ++ [n]) c.1)
termination_by t => sizeOf t
decreasing_by
  simp only [TreeNode.mk.sizeOf_spec]
  have := List.sizeOf_lt_of_mem c.2
  omega

/-- The set (list, in display order) of relative file paths shown in the
rendered tree. -/
def treeFiles (ff : FileFilter) (rootGi : Option GitIgnore)
    (rootChildren : List FSEntry) : List (List String) :=
  (buildRootChildren ff rootGi rootChildren).flatMap (nodeFiles [])

/-- Branch connector of a non-last child (tree builder constant). -/
def treePrefixEntry : String := "├── "

/-- Corner connector of the last child (tree builder constant). -/
def treePrefixLast : String := "└── "

/-- Continuation indent below a non-last child (tree builder constant). -/
def treePrefixContinue : String := "│   "

/-- Blank indent below the last child (tree builder constant). -/
def treePrefixEmpty : String := "    "

/-- writeNodeRecursive (tree builder): serialize the children of a node,
using the branch connector and continuation indent for every non-last
child and the corner connector and blank indent for the last one. -/
def writeNodeRecursive (pre : String) : List TreeNode → String
  | [] => ""
  | [c] =>
    pre ++ treePrefixLast ++ c.name ++ "\n" ++
      (if c.isDir && !c.children.isEmpty then
        writeNodeRecursive (pre ++ treePrefixEmpty) c.children
      else "")
  | c :: c2 :: rest =>
    pre ++ treePrefixEntry ++ c.name ++ "\n" ++
      (if c.isDir && !c.children.isEmpty then
        writeNodeRecursive (pre ++ treePrefixContinue) c.children
      else "") ++
    writeNodeRecursive pre (c2 :: rest)
termination_by cs => sizeOf cs
decreasing_by
  all_goals simp only [List.cons.sizeOf_spec, TreeNode.mk.sizeOf_spec]
  · cases c with
    | mk n d cs => simp [TreeNode.children]; omega
  · cases c with
    | mk n d cs => simp [TreeNode.children]; omega
  · omega

/-- BuildTreeString (tree builder): the root name on the first line,
unprefixed, followed by the serialized children. -/
def BuildTreeString (ff : FileFilter) (rootGi : Option GitIgnore)
    (rootChildren : List FSEntry) : String :=
  let rootNodeName := ff.basePath.getLastD ""
  rootNodeName ++ "\n" ++ writeNodeRecursive "" (buildRootChildren ff rootGi rootChildren)

/-! ## Side conditions relating the two traversals -/

/-- The walk and the tree builder hand the decision engine different
matcher stacks only when deciding a directory whose own .gitignore matches
the directory's own path (the walk includes that matcher, the tree builder
does not). This predicate, over an entry whose parent has relative path
rel, states that no directory in the subtree is matched by its own
.gitignore. -/
def noSelfMatch (base : List String) (rel : List String) : FSEntry → Bool
  | .file _ _ _ => true
  | .dir n gi children =>
    (match gi with
     | some m => !(m.MatchesPath (base ++ rel ++ [n]))
     | none => true) &&
    children.attach.all (fun c => noSelfMatch base (rel ++ [n]) c.1)
termination_by e => sizeOf e
decreasing_by
  simp only [FSEntry.dir.sizeOf_spec]
  have := List.sizeOf_lt_of_mem c.2
  omega

/-- Sortedness of a rendered tree: every node's children are in the tree
builder's display order (directories first, then byte-wise on the lowered
names), recursively. -/
def nodeLe (a b : TreeNode) : Prop :=
  (!(if a.isDir != b.isDir then b.isDir
     else charLt (lowerStr b.name).data (lowerStr a.name).data)) = true

instance : DecidableRel nodeLe := fun a b => by unfold nodeLe; infer_instance

/-- A tree node all of whose levels are sorted in display order. -/
inductive SortedTree : TreeNode → Prop where
  | mk (n : String) (d : Bool) (cs : List TreeNode) :
      List.Sorted nodeLe cs → (∀ c ∈ cs, SortedTree c) → SortedTree (.mk n d cs)

/-- The rendering of one non-last child, per the specification: branch
connector after the parent indent, then the name, then the child's own
children rendered under the continuation indent. -/
def specBranchBlock (pre : String) (c : TreeNode) : String :=
  pre ++ treePrefixEntry ++ c.name ++ "\n" ++
    (if c.isDir && !c.children.isEmpty then
      writeNodeRecursive (pre ++ treePrefixContinue) c.children
    else "")

/-- Concatenation of rendered child blocks, in order. -/
def concatBlocks : List String → String
  | [] => ""
  | s :: ss => s ++ concatBlocks ss

/-- The rendering of the last child, per the specification: corner
connector after the parent indent, then the name, then the child's own
children rendered under the blank indent. -/
def specCornerBlock (pre : String) (c : TreeNode) : String :=
  pre ++ treePrefixLast ++ c.name ++ "\n" ++
    (if c.isDir && !c.children.isEmpty then
      writeNodeRecursive (pre ++ treePrefixEmpty) c.children
    else "")

/-! ## Concrete instances used by counterexamples and witnesses -/

/-- A configuration with no rules: size unlimited, all lists empty, no
auxiliary skipping, no output path. -/
def emptyFilterConfig : FilterConfig :=
  ⟨0, [], [], [], false, [], [], [], [], [], [], [], [], none⟩

/-- A no-rule configuration with the given user-excluded extensions. -/
def extsOnlyConfig (exts : List String) : FilterConfig :=
  ⟨0, [], exts, [], false, [], [], [], [], [], [], [], [], none⟩

/-- A no-rule configuration with the given maximum file size. -/
def maxOnlyConfig (m : Nat) : FilterConfig :=
  ⟨m, [], [], [], false, [], [], [], [], [], [], [], [], none⟩

/-- A no-rule configuration with the given output file path. -/
def outOnlyConfig (out : List String) : FilterConfig :=
  ⟨0, [], [], [], false, [], [], [], [], [], [], [], [], some out⟩

/-- A no-rule configuration with the given default excluded directory
names. -/
def dirsOnlyConfig (dirs : List String) : FilterConfig :=
  ⟨0, [], [], [], false, dirs, [], [], [], [], [], [], [], none⟩

/-- A filter with no rules at all over the root directory base. -/
def ffPlain : FileFilter := ⟨emptyFilterConfig, ["base"], false⟩

/-- The compiled root .gitignore of the override scenario: one line,
star-dot-log. -/
def rootLogIgnore : GitIgnore := ⟨[⟨false, "*.log"⟩]⟩

/-- The compiled sub/.gitignore of the override scenario: a negated
important.log line followed by a star-dot-txt line. -/
def subNegIgnore : GitIgnore := ⟨[⟨true, "important.log"⟩, ⟨false, "*.txt"⟩]⟩

/-- A filter whose traversal root is a directory named build while build
is an excluded directory name. -/
def ffBuildRoot : FileFilter := ⟨dirsOnlyConfig ["build"], ["tmp", "build"], false⟩

/-- One ordinary text file, the whole content of the build-named root. -/
def buildRootChildrenInput : List FSEntry := [.file "a.txt" 10 0o644]

/-- A root with one file and one subdirectory holding one file: the walk
emits a.txt before b/c.txt, the tree lists the directory b first. -/
def mixedChildren : List FSEntry :=
  [.file "a.txt" 10 0o644, .dir "b" none [.file "c.txt" 20 0o644]]

/-- An ignore filesystem with a broken .gitignore in the repo directory
and none anywhere else. -/
def brokenIgnoreFS : IgnoreFS :=
  fun p => if p == "/repo/.gitignore" then .broken else .absent

/-- The configuration with the empty strings removed from the two user
rule lists the decision engine guards against. -/
def configWithoutEmptyUserRules (c : FilterConfig) : FilterConfig :=
  ⟨c.maxFileSize, c.userExcludeDirs, c.userExcludeExts.filter (fun e => e != ""),
   c.userExcludeGlobs.filter (fun p => p != ""), c.skipAuxFiles, c.defaultExcludeDirs,
   c.defaultMediaExts, c.defaultArchiveExts, c.defaultExecExts,
   c.defaultLockfilePatterns, c.defaultMiscellaneousFileNames,
   c.defaultMiscellaneousExtensions, c.defaultAuxExts, c.finalOutputFilePath⟩

/-! ## Unfolding lemmas for the recursive definitions -/

theorem attach_flatMap (l : List α) (f : α → List β) :
    (l.attach.flatMap fun c => f c.1) = l.flatMap f := by
  simp

theorem attach_filterMap (l : List α) (f : α → Option β) :
    (l.attach.filterMap fun c => f c.1) = l.filterMap f := by
  simp

theorem attach_all (l : List α) (f : α → Bool) :
    (l.attach.all fun c => f c.1) = l.all f := by
  rw [Bool.eq_iff_iff, List.all_eq_true, List.all_eq_true]
  constructor
  · intro h a ha
    exact h ⟨a, ha⟩ (List.mem_attach l ⟨a, ha⟩)
  · intro h c _
    exact h c.1 c.2

theorem walkEntry_file (ff : FileFilter) (stack : List GitIgnore) (rel : List String)
    (n : String) (size perm : Nat) :
    walkEntry ff stack rel (.file n size perm) =
      match IsExcluded ff rel (fileDirEntry size perm) stack with
      | .ok none _ => [rel]
      | .ok (some _) _ => []
      | .fail => [] := by
  rw [walkEntry]
  try rfl

theorem walkEntry_dir (ff : FileFilter) (stack : List GitIgnore) (rel : List String)
    (n : String) (gi : Option GitIgnore) (children : List FSEntry) :
    walkEntry ff stack rel (.dir n gi children) =
      match IsExcluded ff rel dirDirEntry (stack ++ gi.toList) with
      | .ok (some _) _ => []
      | _ =>
        (readDirSorted children).flatMap
          (fun c => walkEntry ff (stack ++ gi.toList) (rel ++ [c.name]) c) := by
  rw [walkEntry]
  split
  all_goals first
  | rfl
  | exact attach_flatMap (readDirSorted children)
      (fun x => walkEntry ff (stack ++ gi.toList) (rel ++ [x.name]) x)

theorem buildChild_file (ff : FileFilter) (current : List GitIgnore) (rel : List String)
    (n : String) (size perm : Nat) :
    buildChild ff current rel (.file n size perm) =
      match IsExcluded ff (rel ++ [n]) (fileDirEntry size perm) current with
      | .ok none _ => some (.mk n false [])
      | _ => none := by
  rw [buildChild]
  try rfl

theorem buildChild_dir (ff : FileFilter) (current : List GitIgnore) (rel : List String)
    (n : String) (gi : Option GitIgnore) (children : List FSEntry) :
    buildChild ff current rel (.dir n gi children) =
      match IsExcluded ff (rel ++ [n]) dirDirEntry current with
      | .ok none _ => some (.mk n true
          ((sortForTree children).filterMap
            (buildChild ff (current ++ gi.toList) (rel ++ [n]))))
      | _ => none := by
  rw [buildChild]
  split
  all_goals first
  | rfl
  | exact congrArg (fun cs => some (TreeNode.mk n true cs))
      (attach_filterMap (sortForTree children)
        (fun x => buildChild ff (current ++ gi.toList) (rel ++ [n]) x))

theorem nodeFiles_leaf (rel : List String) (n : String) (cs : List TreeNode) :
    nodeFiles rel (.mk n false cs) = [rel ++ [n]] := by
  rw [nodeFiles]

theorem nodeFiles_dir (rel : List String) (n : String) (cs : List TreeNode) :
    nodeFiles rel (.mk n true cs) = cs.flatMap (nodeFiles (rel ++ [n])) := by
  rw [nodeFiles]
  exact attach_flatMap cs (nodeFiles (rel ++ [n]))

theorem noSelfMatch_file (base rel : List String) (n : String) (size perm : Nat) :
    noSelfMatch base rel (.file n size perm) = true := by
  rw [noSelfMatch.eq_def]

theorem noSelfMatch_dir (base rel : List String) (n : String) (gi : Option GitIgnore)
    (children : List FSEntry) :
    noSelfMatch base rel (.dir n gi children) =
      ((match gi with
        | some m => !(m.MatchesPath (base ++ rel ++ [n]))
        | none => true) &&
       children.all (noSelfMatch base (rel ++ [n]))) := by
  rw [noSelfMatch.eq_def]
  show ((match gi with
        | some m => !(m.MatchesPath (base ++ rel ++ [n]))
        | none => true) &&
       children.attach.all (fun c => noSelfMatch base (rel ++ [n]) c.1)) = _
  rw [attach_all children (noSelfMatch base (rel ++ [n]))]

/-! ## Basic facts about IsExcluded -/

/-- The output-file check is the first branch: when the entry's absolute
path is the configured output path, every other argument is ignored. -/
theorem IsExcluded_output (ff : FileFilter) (rel : List String) (d : DirEntry)
    (st : List GitIgnore) (h : ff.config.finalOutputFilePath = some (ff.basePath ++ rel)) :
    IsExcluded ff rel d st = .ok (some .outputSelf) false := by
  simp [IsExcluded, h]

/-- IsExcluded only returns an error when Info() fails on a non-symlink;
an entry whose metadata reads fine never produces the error outcome. -/
theorem IsExcluded_ne_fail (ff : FileFilter) (rel : List String) (d : DirEntry)
    (info : FileInfo) (st : List GitIgnore) (h : d.info = .ok info) :
    IsExcluded ff rel d st ≠ .fail := by
  intro hF
  unfold IsExcluded at hF
  rw [h] at hF
  repeat' split at hF
  all_goals first
  | exact FilterOutcome.noConfusion hF
  | simp_all

theorem firstMatching_cons (r : Rule) (c : Bool) (rest : List (Rule × Bool)) :
    firstMatching ((r, c) :: rest) = if c then some r else firstMatching rest := by
  cases c <;> simp [firstMatching, List.find?_cons]

theorem firstMatching_mem (l : List (Rule × Bool)) (r : Rule)
    (h : firstMatching l = some r) : (r, true) ∈ l := by
  unfold firstMatching at h
  rcases Option.map_eq_some'.mp h with ⟨rc, hfind, hr⟩
  have hmem := List.mem_of_find?_eq_some hfind
  have hc : rc.2 = true := List.find?_some hfind
  have : rc = (r, true) := by
    cases rc
    simp_all
  rw [this] at hmem
  exact hmem

/-- Bridge: for a regular file that is not the output file and that no
active matcher ignores, IsExcluded is exactly the file rule chain. -/
theorem IsExcluded_file_eq (ff : FileFilter) (rel : List String)
    (st : List GitIgnore) (size perm : Nat)
    (hout : ff.config.finalOutputFilePath ≠ some (ff.basePath ++ rel))
    (hgi : ∀ g ∈ st, g.MatchesPath (ff.basePath ++ rel) = false) :
    IsExcluded ff rel (fileDirEntry size perm) st =
      .ok (fileRule? ff (relPathStr rel) ((ff.basePath ++ rel).getLastD "")
        ⟨size, false, false, perm⟩) false := by
  have h1 : (ff.config.finalOutputFilePath == some (ff.basePath ++ rel)) = false :=
    beq_eq_false_iff_ne.mpr hout
  have h2 : ((st.reverse).any fun m => m.MatchesPath (ff.basePath ++ rel)) = false := by
    rw [List.any_eq_false]
    intro m hm
    simp [hgi m (List.mem_reverse.mp hm)]
  simp [IsExcluded, fileDirEntry, h1, h2]

/-- Bridge: for a regular file that is not the output file but that some
active matcher ignores, IsExcluded reports the gitignore rule. -/
theorem IsExcluded_file_gitignore (ff : FileFilter) (rel : List String)
    (st : List GitIgnore) (size perm : Nat)
    (hout : ff.config.finalOutputFilePath ≠ some (ff.basePath ++ rel))
    (hgi : ((st.reverse).any fun m => m.MatchesPath (ff.basePath ++ rel)) = true) :
    IsExcluded ff rel (fileDirEntry size perm) st = .ok (some .gitignore) false := by
  have h1 : (ff.config.finalOutputFilePath == some (ff.basePath ++ rel)) = false :=
    beq_eq_false_iff_ne.mpr hout
  simp [IsExcluded, fileDirEntry, h1, hgi]

/-- A fired file rule implies its own test: the max-size case. -/
theorem fileRule?_maxSize_implies (ff : FileFilter) (relStr baseName : String)
    (info : FileInfo) (h : fileRule? ff relStr baseName info = some .maxSize) :
    0 < ff.config.maxFileSize ∧ ff.config.maxFileSize < info.size := by
  have hmem := firstMatching_mem _ _ h
  simp only [fileRuleConds, List.mem_cons, List.not_mem_nil, or_false,
    Prod.mk.injEq] at hmem
  rcases hmem with h1 | h1 <;> simp_all

/-- A fired file rule implies its own test: the user-extension case. -/
theorem fileRule?_userExt_implies (ff : FileFilter) (relStr baseName : String)
    (info : FileInfo) (h : fileRule? ff relStr baseName info = some .userExt) :
    (ff.config.userExcludeExts.any
      (fun e => e != "" && lowerStr (pathExt baseName) == e)) = true := by
  have hmem := firstMatching_mem _ _ h
  simp only [fileRuleConds, List.mem_cons, List.not_mem_nil, or_false,
    Prod.mk.injEq] at hmem
  rcases hmem with h1 | h1 <;> simp_all

/-- The max-size rule is the head of the chain: it fires exactly on its
test. -/
theorem fileRule?_maxSize_iff (ff : FileFilter) (relStr baseName : String)
    (info : FileInfo) :
    fileRule? ff relStr baseName info = some .maxSize ↔
      (0 < ff.config.maxFileSize ∧ ff.config.maxFileSize < info.size) := by
  constructor
  · exact fileRule?_maxSize_implies ff relStr baseName info
  · intro hAnd
    have hc : (decide (0 < ff.config.maxFileSize) &&
        decide (ff.config.maxFileSize < info.size)) = true := by
      simp [hAnd.1, hAnd.2]
    unfold fileRule? fileRuleConds
    rw [firstMatching_cons, if_pos hc]

/-- With the size rule passing, the user-extension rule fires exactly on
its test. -/
theorem fileRule?_userExt_iff (ff : FileFilter) (relStr baseName : String)
    (info : FileInfo)
    (hsz : ¬(0 < ff.config.maxFileSize ∧ ff.config.maxFileSize < info.size)) :
    fileRule? ff relStr baseName info = some .userExt ↔
      (ff.config.userExcludeExts.any
        (fun e => e != "" && lowerStr (pathExt baseName) == e)) = true := by
  constructor
  · exact fileRule?_userExt_implies ff relStr baseName info
  · intro hAny
    have hc : (decide (0 < ff.config.maxFileSize) &&
        decide (ff.config.maxFileSize < info.size)) = false := by
      rcases Nat.eq_zero_or_pos ff.config.maxFileSize with h0 | h0
      · simp [h0]
      · have : ¬ ff.config.maxFileSize < info.size := fun hlt => hsz ⟨h0, hlt⟩
        simp [this]
    unfold fileRule? fileRuleConds
    rw [firstMatching_cons, if_neg (by simp [hc]), firstMatching_cons, if_pos hAny]

/-! ## Membership of the two traversals: every emitted file passed an
accepting filter call -/

theorem mem_walkEntry_filter_ok (ff : FileFilter) :
    ∀ (N : Nat) (e : FSEntry), sizeOf e ≤ N →
      ∀ (st : List GitIgnore) (rel p : List String),
        p ∈ walkEntry ff st rel e →
        ∃ size perm stack b,
          IsExcluded ff p (fileDirEntry size perm) stack = .ok none b := by
  intro N
  induction N with
  | zero =>
    intro e he
    cases e <;> simp_all [FSEntry.file.sizeOf_spec, FSEntry.dir.sizeOf_spec]
  | succ N ih =>
    intro e he st rel p hp
    cases e with
    | file nm size perm =>
      rw [walkEntry_file] at hp
      cases hD : IsExcluded ff rel (fileDirEntry size perm) st with
      | ok r b =>
        cases r with
        | none =>
          rw [hD] at hp
          simp only [List.mem_singleton] at hp
          subst hp
          exact ⟨size, perm, st, b, hD⟩
        | some rr =>
          rw [hD] at hp
          simp at hp
      | fail =>
        rw [hD] at hp
        simp at hp
    | dir nm gi children =>
      rw [walkEntry_dir] at hp
      have hsub : ∀ c ∈ readDirSorted children,
          p ∈ walkEntry ff (st ++ gi.toList) (rel ++ [c.name]) c →
          ∃ size perm stack b,
            IsExcluded ff p (fileDirEntry size perm) stack = .ok none b := by
        intro c hc hpc
        have hcm : c ∈ children := (List.perm_insertionSort _ _).mem_iff.mp hc
        have hsz : sizeOf c < sizeOf (FSEntry.dir nm gi children) := by
          have := List.sizeOf_lt_of_mem hcm
          simp only [FSEntry.dir.sizeOf_spec]
          omega
        exact ih c (by omega) _ _ _ hpc
      cases hD : IsExcluded ff rel dirDirEntry (st ++ gi.toList) with
      | ok r b =>
        cases r with
        | none =>
          rw [hD] at hp
          simp only [List.mem_flatMap] at hp
          rcases hp with ⟨c, hc, hpc⟩
          exact hsub c hc hpc
        | some rr =>
          rw [hD] at hp
          simp at hp
      | fail =>
        rw [hD] at hp
        simp only [List.mem_flatMap] at hp
        rcases hp with ⟨c, hc, hpc⟩
        exact hsub c hc hpc

theorem mem_buildChild_filter_ok (ff : FileFilter) :
    ∀ (N : Nat) (e : FSEntry), sizeOf e ≤ N →
      ∀ (current : List GitIgnore) (rel p : List String) (node : TreeNode),
        buildChild ff current rel e = some node →
        p ∈ nodeFiles rel node →
        ∃ size perm stack b,
          IsExcluded ff p (fileDirEntry size perm) stack = .ok none b := by
  intro N
  induction N with
  | zero =>
    intro e he
    cases e <;> simp_all [FSEntry.file.sizeOf_spec, FSEntry.dir.sizeOf_spec]
  | succ N ih =>
    intro e he current rel p node hb hp
    cases e with
    | file nm size perm =>
      rw [buildChild_file] at hb
      cases hD : IsExcluded ff (rel ++ [nm]) (fileDirEntry size perm) current with
      | ok r b =>
        cases r with
        | none =>
          rw [hD] at hb
          simp only [Option.some.injEq] at hb
          subst hb
          rw [nodeFiles_leaf] at hp
          simp only [List.mem_singleton] at hp
          subst hp
          exact ⟨size, perm, current, b, hD⟩
        | some rr =>
          rw [hD] at hb
          simp at hb
      | fail =>
        rw [hD] at hb
        simp at hb
    | dir nm gi children =>
      rw [buildChild_dir] at hb
      cases hD : IsExcluded ff (rel ++ [nm]) dirDirEntry current with
      | ok r b =>
        cases r with
        | none =>
          rw [hD] at hb
          simp only [Option.some.injEq] at hb
          subst hb
          rw [nodeFiles_dir] at hp
          simp only [List.mem_flatMap] at hp
          rcases hp with ⟨c', hc', hpc⟩
          rw [List.mem_filterMap] at hc'
          rcases hc' with ⟨c, hc, hbc⟩
          have hcm : c ∈ children := (List.perm_insertionSort _ _).mem_iff.mp hc
          have hsz : sizeOf c < sizeOf (FSEntry.dir nm gi children) := by
            have := List.sizeOf_lt_of_mem hcm
            simp only [FSEntry.dir.sizeOf_spec]
            omega
          exact ih c (by omega) _ _ _ _ hbc hpc
        | some rr =>
          rw [hD] at hb
          simp at hb
      | fail =>
        rw [hD] at hb
        simp at hb

/-! ## Remaining helper lemmas -/

theorem any_filter_ne (l : List String) (f : String → Bool) :
    ((l.filter (fun e => e != "")).any fun e => e != "" && f e) =
      (l.any fun e => e != "" && f e) := by
  induction l with
  | nil => rfl
  | cons a as ih =>
    by_cases h : a = ""
    · subst h
      simp [List.filter_cons, List.any_cons, ih]
    · have h' : (a != "") = true := by simp [h]
      simp [List.filter_cons, h', List.any_cons, ih]

/-- When the gitignore scan reports no match, no matcher on the stack
matches the path. -/
theorem matchers_not_any (st : List GitIgnore) (p : List String)
    (hgi : ¬ (((st.reverse).any fun m => m.MatchesPath p) = true)) :
    ∀ g ∈ st, g.MatchesPath p = false := by
  intro g hg
  rcases Bool.eq_false_or_eq_true (g.MatchesPath p) with h0 | h0
  · exact absurd (List.any_eq_true.mpr ⟨g, List.mem_reverse.mpr hg, h0⟩) hgi
  · exact h0

/-! # The claims -/

/-- C1. The claim says the override-by-specificity law holds: with root
.gitignore star-dot-log and sub/.gitignore negating important.log, the
path sub/important.log should not be excluded. The code refutes it: the
deepest matcher reports sub/important.log as not ignored (its negation is
its only matching line), the cascade therefore falls through to the root
matcher, whose star-dot-log pattern matches, and IsExcluded excludes the
file — contradicting the repository's own filefilter and processor tests.
The other three paths of the scenario behave as the claim states. -/
theorem C1_gitignore_override_code_bug :
    (IsExcluded ffPlain ["sub", "important.log"] (fileDirEntry 100 0o644)
      [rootLogIgnore, subNegIgnore]).isExcludedB = true ∧
    subNegIgnore.MatchesPath ["base", "sub", "important.log"] = false ∧
    (IsExcluded ffPlain ["sub", "other.log"] (fileDirEntry 100 0o644)
      [rootLogIgnore, subNegIgnore]).isExcludedB = true ∧
    (IsExcluded ffPlain ["sub", "data.txt"] (fileDirEntry 100 0o644)
      [rootLogIgnore, subNegIgnore]).isExcludedB = true ∧
    (IsExcluded ffPlain ["x.log"] (fileDirEntry 100 0o644)
      [rootLogIgnore]).isExcludedB = true := by
  decide

/-- C3. Self-exclusion has highest priority: an entry whose absolute path
is the configured output path is excluded by the first rule, whatever its
metadata, matcher stack or the remaining configuration, and consequently
the output path never appears among the walked content files or the
rendered tree's files. -/
theorem C3_output_self_exclusion (ff : FileFilter) (rel : List String) (d : DirEntry)
    (st : List GitIgnore) (rootGi : Option GitIgnore) (rootChildren : List FSEntry)
    (h : ff.config.finalOutputFilePath = some (ff.basePath ++ rel)) :
    IsExcluded ff rel d st = .ok (some .outputSelf) false ∧
    rel ∉ processWalk ff rootGi rootChildren ∧
    rel ∉ treeFiles ff rootGi rootChildren := by
  refine ⟨IsExcluded_output ff rel d st h, ?_, ?_⟩
  · intro hmem
    simp only [processWalk] at hmem
    split at hmem
    · simp at hmem
    · simp only [List.mem_flatMap] at hmem
      rcases hmem with ⟨c, _, hm⟩
      rcases mem_walkEntry_filter_ok ff (sizeOf c) c le_rfl _ _ _ hm with
        ⟨size, perm, stack, b, hEq⟩
      rw [IsExcluded_output ff rel (fileDirEntry size perm) stack h] at hEq
      simp at hEq
  · intro hmem
    unfold treeFiles buildRootChildren at hmem
    simp only [List.mem_flatMap] at hmem
    rcases hmem with ⟨node, hnode, hm⟩
    rw [List.mem_filterMap] at hnode
    rcases hnode with ⟨c, _, hbc⟩
    rcases mem_buildChild_filter_ok ff (sizeOf c) c le_rfl _ _ _ _ hbc hm with
      ⟨size, perm, stack, b, hEq⟩
    rw [IsExcluded_output ff rel (fileDirEntry size perm) stack h] at hEq
    simp at hEq

/-- Witness for C3 at a concrete input: the configured output file
base/out.txt is excluded and appears in neither traversal even though the
root holds a file of that name. -/
theorem C3_output_self_exclusion_witness :
    IsExcluded ⟨outOnlyConfig ["base", "out.txt"], ["base"], false⟩ ["out.txt"]
        (fileDirEntry 5 0o644) [] = .ok (some .outputSelf) false ∧
    ["out.txt"] ∉ processWalk ⟨outOnlyConfig ["base", "out.txt"], ["base"], false⟩
        none [.file "out.txt" 5 0o644] ∧
    ["out.txt"] ∉ treeFiles ⟨outOnlyConfig ["base", "out.txt"], ["base"], false⟩
        none [.file "out.txt" 5 0o644] :=
  C3_output_self_exclusion ⟨outOnlyConfig ["base", "out.txt"], ["base"], false⟩
    ["out.txt"] (fileDirEntry 5 0o644) [] none [.file "out.txt" 5 0o644] (by decide)

/-- C4. Max-size rule semantics: a file strictly larger than a nonzero
limit is excluded (and, when no earlier rule fires, excluded by the size
rule); with a zero limit no file is ever excluded by size; and a file
whose size equals the limit is never excluded by size (the comparison is
strict). -/
theorem C4_max_size_semantics (ff : FileFilter) (rel : List String)
    (st : List GitIgnore) (size perm : Nat) :
    (0 < ff.config.maxFileSize → ff.config.maxFileSize < size →
      (IsExcluded ff rel (fileDirEntry size perm) st).isExcludedB = true) ∧
    (ff.config.finalOutputFilePath ≠ some (ff.basePath ++ rel) →
      (∀ g ∈ st, g.MatchesPath (ff.basePath ++ rel) = false) →
      0 < ff.config.maxFileSize → ff.config.maxFileSize < size →
      IsExcluded ff rel (fileDirEntry size perm) st = .ok (some .maxSize) false) ∧
    (ff.config.maxFileSize = 0 →
      ∀ b, IsExcluded ff rel (fileDirEntry size perm) st ≠ .ok (some .maxSize) b) ∧
    (size = ff.config.maxFileSize →
      ∀ b, IsExcluded ff rel (fileDirEntry size perm) st ≠ .ok (some .maxSize) b) := by
  have hrule : ∀ b, IsExcluded ff rel (fileDirEntry size perm) st = .ok (some .maxSize) b →
      0 < ff.config.maxFileSize ∧ ff.config.maxFileSize < size := by
    intro b hEq
    by_cases hout : ff.config.finalOutputFilePath = some (ff.basePath ++ rel)
    · rw [IsExcluded_output ff rel _ st hout] at hEq
      simp at hEq
    · by_cases hgi : ((st.reverse).any fun m => m.MatchesPath (ff.basePath ++ rel)) = true
      · rw [IsExcluded_file_gitignore ff rel st size perm hout hgi] at hEq
        simp at hEq
      · rw [IsExcluded_file_eq ff rel st size perm hout
          (matchers_not_any st (ff.basePath ++ rel) hgi)] at hEq
        simp only [FilterOutcome.ok.injEq] at hEq
        exact fileRule?_maxSize_implies _ _ _ _ hEq.1
  refine ⟨?_, ?_, ?_, ?_⟩
  · intro h1 h2
    by_cases hout : ff.config.finalOutputFilePath = some (ff.basePath ++ rel)
    · rw [IsExcluded_output ff rel _ st hout]
      rfl
    · by_cases hgi : ((st.reverse).any fun m => m.MatchesPath (ff.basePath ++ rel)) = true
      · rw [IsExcluded_file_gitignore ff rel st size perm hout hgi]
        rfl
      · rw [IsExcluded_file_eq ff rel st size perm hout
          (matchers_not_any st (ff.basePath ++ rel) hgi)]
        rw [(fileRule?_maxSize_iff ff _ _ _).mpr ⟨h1, h2⟩]
        rfl
  · intro hout hgi' h1 h2
    rw [IsExcluded_file_eq ff rel st size perm hout hgi']
    rw [(fileRule?_maxSize_iff ff _ _ _).mpr ⟨h1, h2⟩]
  · intro h0 b hEq
    rcases hrule b hEq with ⟨hpos, _⟩
    omega
  · intro hsz b hEq
    rcases hrule b hEq with ⟨_, hlt⟩
    omega

/-- Witness for C4 at a concrete input: with limit 1024, a 2000-byte file
is excluded by the size rule, while a 1024-byte file and any file under a
zero limit are not size-excluded. -/
theorem C4_max_size_semantics_witness :
    IsExcluded ⟨maxOnlyConfig 1024, ["base"], false⟩ ["large.bin"]
        (fileDirEntry 2000 0o644) [] = .ok (some .maxSize) false ∧
    (∀ b, IsExcluded ⟨maxOnlyConfig 1024, ["base"], false⟩ ["exact.dat"]
        (fileDirEntry 1024 0o644) [] ≠ .ok (some .maxSize) b) ∧
    (∀ b, IsExcluded ⟨maxOnlyConfig 0, ["base"], false⟩ ["big.bin"]
        (fileDirEntry 999999 0o644) [] ≠ .ok (some .maxSize) b) := by
  refine ⟨?_, ?_, ?_⟩
  · exact (C4_max_size_semantics ⟨maxOnlyConfig 1024, ["base"], false⟩ ["large.bin"] []
      2000 0o644).2.1 (by decide) (by intro g hg; simp at hg) (by decide) (by decide)
  · exact (C4_max_size_semantics ⟨maxOnlyConfig 1024, ["base"], false⟩ ["exact.dat"] []
      1024 0o644).2.2.2 (by decide)
  · exact (C4_max_size_semantics ⟨maxOnlyConfig 0, ["base"], false⟩ ["big.bin"] []
      999999 0o644).2.2.1 (by decide)

/-- C7. Symbolic links are always excluded: any entry whose mode carries
the symlink bit is reported excluded whatever the remaining rules, and a
broken symlink (metadata read fails with not-exist while the entry type is
a symlink) is reported excluded through a normal non-error return. -/
theorem C7_symlinks_always_excluded (ff : FileFilter) (rel : List String)
    (tS : Bool) (info : FileInfo) (st : List GitIgnore)
    (h : info.modeSymlink = true) :
    (IsExcluded ff rel ⟨tS, .ok info⟩ st).isExcludedB = true ∧
    (∃ r, IsExcluded ff rel ⟨true, .errNotExist⟩ st = .ok (some r) false) := by
  constructor
  · by_cases hout : ff.config.finalOutputFilePath = some (ff.basePath ++ rel)
    · rw [IsExcluded_output ff rel _ st hout]
      rfl
    · have h1 : (ff.config.finalOutputFilePath == some (ff.basePath ++ rel)) = false :=
        beq_eq_false_iff_ne.mpr hout
      simp [IsExcluded, h1, h, FilterOutcome.isExcludedB]
  · by_cases hout : ff.config.finalOutputFilePath = some (ff.basePath ++ rel)
    · exact ⟨.outputSelf, IsExcluded_output ff rel _ st hout⟩
    · refine ⟨.brokenSymlink, ?_⟩
      have h1 : (ff.config.finalOutputFilePath == some (ff.basePath ++ rel)) = false :=
        beq_eq_false_iff_ne.mpr hout
      simp [IsExcluded, h1]

/-- Witness for C7 at a concrete input: a symlink entry and a broken
symlink entry are both excluded without an error. -/
theorem C7_symlinks_always_excluded_witness :
    (IsExcluded ffPlain ["link.txt"] ⟨true, .ok ⟨0, false, true, 0o644⟩⟩ []).isExcludedB
        = true ∧
    (∃ r, IsExcluded ffPlain ["broken"] ⟨true, .errNotExist⟩ [] = .ok (some r) false) :=
  ⟨(C7_symlinks_always_excluded ffPlain ["link.txt"] true ⟨0, false, true, 0o644⟩ []
      (by decide)).1,
   (C7_symlinks_always_excluded ffPlain ["broken"] true ⟨0, false, true, 0o644⟩ []
      (by decide)).2⟩

/-- C8 counterexample. The claim says a configured extension matches
case-insensitively, so a configured .LOG (upper case) would exclude
APP.LOG. In the code only the file's extension is lowered — the CLI adds
a leading dot to the configured value but never lowers it — so a
configured .LOG excludes nothing, while a configured .log does exclude
APP.LOG. -/
theorem C8_upper_config_counterexample :
    IsExcluded ⟨extsOnlyConfig [".LOG"], ["base"], false⟩ ["APP.LOG"]
        (fileDirEntry 100 0o644) [] = .ok none false ∧
    IsExcluded ⟨extsOnlyConfig [".log"], ["base"], false⟩ ["APP.LOG"]
        (fileDirEntry 100 0o644) [] = .ok (some .userExt) false := by
  decide

/-- C8 as amended: the user-extension rule lowers the file's extension
and then compares byte-exactly with the configured string, so matching is
case-insensitive in the file name but case-sensitive in the configured
value. For a file that no earlier rule claims, the rule fires exactly
when some nonempty configured entry equals the lowered extension. -/
theorem C8_user_ext_lowered_file_side_only (ff : FileFilter) (rel : List String)
    (st : List GitIgnore) (size perm : Nat)
    (hout : ff.config.finalOutputFilePath ≠ some (ff.basePath ++ rel))
    (hgi : ∀ g ∈ st, g.MatchesPath (ff.basePath ++ rel) = false)
    (hsz : ¬(0 < ff.config.maxFileSize ∧ ff.config.maxFileSize < size)) :
    IsExcluded ff rel (fileDirEntry size perm) st = .ok (some .userExt) false ↔
      (ff.config.userExcludeExts.any
        (fun e => e != "" &&
          lowerStr (pathExt ((ff.basePath ++ rel).getLastD "")) == e)) = true := by
  rw [IsExcluded_file_eq ff rel st size perm hout hgi]
  constructor
  · intro h
    simp only [FilterOutcome.ok.injEq] at h
    exact fileRule?_userExt_implies _ _ _ _ h.1
  · intro hAny
    rw [(fileRule?_userExt_iff ff (relPathStr rel) ((ff.basePath ++ rel).getLastD "")
      ⟨size, false, false, perm⟩ hsz).mpr hAny]

/-- Witness for the amended C8 at a concrete input: a configured .log
excludes APP.LOG through the user-extension rule. -/
theorem C8_user_ext_lowered_witness :
    IsExcluded ⟨extsOnlyConfig [".log"], ["base"], false⟩ ["APP.LOG"]
        (fileDirEntry 100 0o644) [] = .ok (some .userExt) false :=
  (C8_user_ext_lowered_file_side_only ⟨extsOnlyConfig [".log"], ["base"], false⟩
    ["APP.LOG"] [] 100 0o644 (by decide) (by intro g hg; simp at hg)
    (by decide)).mpr (by decide)

/-- C10. Empty user rules are inert: removing the empty strings from the
user-excluded extension and glob lists never changes a decision, and a
file with no extension is never excluded by the user-extension rule (in
particular not by an empty configured entry). -/
theorem C10_empty_user_rules_inert (ff : FileFilter) (rel : List String) (d : DirEntry)
    (st : List GitIgnore) :
    IsExcluded ⟨configWithoutEmptyUserRules ff.config, ff.basePath, ff.goosWindows⟩
        rel d st = IsExcluded ff rel d st ∧
    (pathExt ((ff.basePath ++ rel).getLastD "") = "" →
      ∀ size perm b, IsExcluded ff rel (fileDirEntry size perm) st
        ≠ .ok (some .userExt) b) := by
  constructor
  · simp only [IsExcluded, fileRule?, fileRuleConds, configWithoutEmptyUserRules,
      any_filter_ne]
  · intro hext size perm b hEq
    by_cases hout : ff.config.finalOutputFilePath = some (ff.basePath ++ rel)
    · rw [IsExcluded_output ff rel _ st hout] at hEq
      simp at hEq
    · by_cases hgi : ((st.reverse).any fun m => m.MatchesPath (ff.basePath ++ rel)) = true
      · rw [IsExcluded_file_gitignore ff rel st size perm hout hgi] at hEq
        simp at hEq
      · rw [IsExcluded_file_eq ff rel st size perm hout
          (matchers_not_any st (ff.basePath ++ rel) hgi)] at hEq
        simp only [FilterOutcome.ok.injEq] at hEq
        have hAny := fileRule?_userExt_implies _ _ _ _ hEq.1
        rw [hext] at hAny
        rcases List.any_eq_true.mp hAny with ⟨e, _, hcond⟩
        have hlow : lowerStr "" = "" := rfl
        rw [hlow] at hcond
        simp only [Bool.and_eq_true, bne_iff_ne, beq_iff_eq] at hcond
        exact hcond.1 hcond.2.symm

/-- Witness for C10 at a concrete input: an empty entry in both user
lists changes nothing for a dotless file, which is also not excluded by
the user-extension rule. -/
theorem C10_empty_user_rules_inert_witness :
    IsExcluded ⟨configWithoutEmptyUserRules
        ⟨0, [], [""], [""], false, [], [], [], [], [], [], [], [], none⟩,
        ["base"], false⟩ ["Makefile"] (fileDirEntry 10 0o644) []
      = IsExcluded ⟨⟨0, [], [""], [""], false, [], [], [], [], [], [], [], [], none⟩,
        ["base"], false⟩ ["Makefile"] (fileDirEntry 10 0o644) [] ∧
    (∀ b, IsExcluded ⟨⟨0, [], [""], [""], false, [], [], [], [], [], [], [], [], none⟩,
        ["base"], false⟩ ["Makefile"] (fileDirEntry 10 0o644) []
      ≠ .ok (some .userExt) b) :=
  ⟨(C10_empty_user_rules_inert
      ⟨⟨0, [], [""], [""], false, [], [], [], [], [], [], [], [], none⟩, ["base"], false⟩
      ["Makefile"] (fileDirEntry 10 0o644) []).1,
   fun b => (C10_empty_user_rules_inert
      ⟨⟨0, [], [""], [""], false, [], [], [], [], [], [], [], [], none⟩, ["base"], false⟩
      ["Makefile"] (fileDirEntry 10 0o644) []).2 (by decide) 10 0o644 b⟩

/-- C6. The gitignore matcher cache: a second compile call for the same
directory returns the same matcher and the same cache and touches the
filesystem only on the first (cache-missing) call; the function never
returns an error; and a .gitignore that fails to compile is cached as the
no-matcher marker and yields none. -/
theorem C6_compile_idempotent_cached (fs : IgnoreFS) (cache : GitIgnoreCache)
    (dirPath : String) :
    (compileAndCacheGitIgnore fs
        (compileAndCacheGitIgnore fs cache dirPath).cache dirPath).matcher
      = (compileAndCacheGitIgnore fs cache dirPath).matcher ∧
    (compileAndCacheGitIgnore fs
        (compileAndCacheGitIgnore fs cache dirPath).cache dirPath).cache
      = (compileAndCacheGitIgnore fs cache dirPath).cache ∧
    (compileAndCacheGitIgnore fs
        (compileAndCacheGitIgnore fs cache dirPath).cache dirPath).touchedFS = false ∧
    (compileAndCacheGitIgnore fs cache dirPath).err = none ∧
    (cache.lookup (dirPath ++ "/.gitignore") = none →
      (compileAndCacheGitIgnore fs cache dirPath).touchedFS = true) ∧
    (cache.lookup (dirPath ++ "/.gitignore") = none →
      fs (dirPath ++ "/.gitignore") = .broken →
      (compileAndCacheGitIgnore fs cache dirPath).matcher = none ∧
      (compileAndCacheGitIgnore fs cache dirPath).err = none ∧
      ((compileAndCacheGitIgnore fs cache dirPath).cache.lookup
        (dirPath ++ "/.gitignore")) = some none) := by
  cases hL : cache.lookup (dirPath ++ "/.gitignore") with
  | some m => simp [compileAndCacheGitIgnore, hL]
  | none =>
    cases hF : fs (dirPath ++ "/.gitignore") with
    | valid g => simp [compileAndCacheGitIgnore, hL, hF, List.lookup]
    | broken => simp [compileAndCacheGitIgnore, hL, hF, List.lookup]
    | absent => simp [compileAndCacheGitIgnore, hL, hF, List.lookup]
    | statError => simp [compileAndCacheGitIgnore, hL, hF, List.lookup]

/-- Witness for C6 at a concrete input: a broken .gitignore in /repo is
compiled once (with filesystem I/O), yields none without an error, caches
the no-matcher marker, and the repeated call does no I/O. -/
theorem C6_compile_idempotent_cached_witness :
    (compileAndCacheGitIgnore brokenIgnoreFS [] "/repo").matcher = none ∧
    (compileAndCacheGitIgnore brokenIgnoreFS [] "/repo").err = none ∧
    (compileAndCacheGitIgnore brokenIgnoreFS [] "/repo").touchedFS = true ∧
    (compileAndCacheGitIgnore brokenIgnoreFS
        (compileAndCacheGitIgnore brokenIgnoreFS [] "/repo").cache "/repo").touchedFS
      = false ∧
    ((compileAndCacheGitIgnore brokenIgnoreFS [] "/repo").cache.lookup
        ("/repo" ++ "/.gitignore")) = some none := by
  have h := C6_compile_idempotent_cached brokenIgnoreFS [] "/repo"
  have hb := h.2.2.2.2.2 (by decide) (by decide)
  exact ⟨hb.1, hb.2.1, h.2.2.2.2.1 (by decide), h.2.2.1, hb.2.2⟩

/-! ## The walk and the tree builder traverse the same set of files -/

/-- Appending a matcher that does not match the path leaves the decision
unchanged: the gitignore scan is the only rule that reads the stack. -/
theorem isExcluded_append_no_match (ff : FileFilter) (rel : List String)
    (d : DirEntry) (st : List GitIgnore) (gi : Option GitIgnore)
    (h : gi.all (fun m => !(m.MatchesPath (ff.basePath ++ rel))) = true) :
    IsExcluded ff rel d (st ++ gi.toList) = IsExcluded ff rel d st := by
  cases gi with
  | none => simp [Option.toList]
  | some m =>
    simp only [Option.all_some, Bool.not_eq_eq_eq_not, Bool.not_true] at h
    have hstack : (((st ++ (some m).toList).reverse).any
          fun g => g.MatchesPath (ff.basePath ++ rel))
        = ((st.reverse).any fun g => g.MatchesPath (ff.basePath ++ rel)) := by
      simp [Option.toList, List.reverse_append, h]
    unfold IsExcluded
    rw [hstack]

theorem flatMap_filterMap (l : List α) (f : α → Option β) (g : β → List γ) :
    (l.filterMap f).flatMap g = l.flatMap (fun c => (f c).elim [] g) := by
  induction l with
  | nil => rfl
  | cons a as ih =>
    cases hfa : f a with
    | none => simp [List.filterMap_cons, hfa, ih]
    | some b => simp [List.filterMap_cons, hfa, ih]

/-- The membership-and-multiset agreement of the two traversals, per
directory level: walking a directory's children (each child decided with
the directory's stack, a subdirectory additionally with its own matcher)
produces, up to order, the files shown below that directory's tree node,
provided no subdirectory's own .gitignore matches the subdirectory
itself. -/
theorem walk_tree_children_perm (ff : FileFilter) :
    ∀ (N : Nat) (children : List FSEntry), sizeOf children ≤ N →
      ∀ (stackD : List GitIgnore) (rel : List String),
        (∀ c ∈ children, noSelfMatch ff.basePath rel c = true) →
        List.Perm
          ((readDirSorted children).flatMap
            (fun c => walkEntry ff stackD (rel ++ [c.name]) c))
          (((sortForTree children).filterMap (buildChild ff stackD rel)).flatMap
            (nodeFiles rel)) := by
  intro N
  induction N with
  | zero =>
    intro children hsz
    exfalso
    have h1 : 1 ≤ sizeOf children := by
      cases children with
      | nil => simp
      | cons a as => simp only [List.cons.sizeOf_spec]; omega
    omega
  | succ N ih =>
    intro children hsz stackD rel hns
    have hpt : ∀ c ∈ children,
        List.Perm (walkEntry ff stackD (rel ++ [c.name]) c)
          ((buildChild ff stackD rel c).elim [] (nodeFiles rel)) := by
      intro c hc
      have hnsc := hns c hc
      have hszc : sizeOf c < sizeOf children := List.sizeOf_lt_of_mem hc
      cases c with
      | file nm size perm =>
        simp only [FSEntry.name]
        rw [walkEntry_file, buildChild_file]
        cases hD : IsExcluded ff (rel ++ [nm]) (fileDirEntry size perm) stackD with
        | ok r b =>
          cases r with
          | none => simp [nodeFiles_leaf]
          | some rr => simp
        | fail => simp
      | dir nm gi cs' =>
        rw [noSelfMatch_dir] at hnsc
        simp only [Bool.and_eq_true] at hnsc
        obtain ⟨hgm, hcs⟩ := hnsc
        have hgm' : gi.all (fun m => !(m.MatchesPath (ff.basePath ++ (rel ++ [nm]))))
            = true := by
          cases gi with
          | none => rfl
          | some m =>
            simp only [Option.all_some]
            rw [List.append_assoc] at hgm
            exact hgm
        simp only [FSEntry.name]
        rw [walkEntry_dir, buildChild_dir]
        rw [isExcluded_append_no_match ff (rel ++ [nm]) dirDirEntry stackD gi hgm']
        cases hD : IsExcluded ff (rel ++ [nm]) dirDirEntry stackD with
        | ok r b =>
          cases r with
          | some rr => simp
          | none =>
            simp only [Option.elim_some, nodeFiles_dir]
            have hszcs : sizeOf cs' ≤ N := by
              have : sizeOf cs' < sizeOf (FSEntry.dir nm gi cs') := by
                simp only [FSEntry.dir.sizeOf_spec]
                omega
              omega
            have hall : ∀ c ∈ cs', noSelfMatch ff.basePath (rel ++ [nm]) c = true := by
              intro c hcc
              exact List.all_eq_true.mp hcs c hcc
            exact ih cs' hszcs (stackD ++ gi.toList) (rel ++ [nm]) hall
        | fail =>
          exact absurd hD (IsExcluded_ne_fail ff (rel ++ [nm]) dirDirEntry
            ⟨0, true, false, 0o755⟩ stackD rfl)
    rw [flatMap_filterMap (sortForTree children) (buildChild ff stackD rel)
      (nodeFiles rel)]
    exact ((List.perm_insertionSort readDirLe children).flatMap_right _).trans
      ((List.Perm.flatMap_left children hpt).trans
        ((List.perm_insertionSort treeLe children).flatMap_right _).symm)

/-- Top-level agreement: when the decision engine does not exclude the
traversal root itself (the walk filters the root, the tree builder does
not) and no directory's own .gitignore matches the directory's own path
(the walk includes that matcher when deciding the directory, the tree
builder does not), the walked content files are a permutation of the
files shown in the rendered tree. -/
theorem processWalk_treeFiles_perm (ff : FileFilter) (rootGi : Option GitIgnore)
    (rootChildren : List FSEntry)
    (h1 : (IsExcluded ff [] dirDirEntry rootGi.toList).isExcludedB = false)
    (h2 : ∀ c ∈ rootChildren, noSelfMatch ff.basePath [] c = true) :
    List.Perm (processWalk ff rootGi rootChildren)
      (treeFiles ff rootGi rootChildren) := by
  simp only [processWalk, treeFiles, buildRootChildren]
  cases hD : IsExcluded ff [] dirDirEntry rootGi.toList with
  | ok r b =>
    cases r with
    | some rr => simp [hD, FilterOutcome.isExcludedB] at h1
    | none =>
      simpa using walk_tree_children_perm ff (sizeOf rootChildren) rootChildren
        le_rfl rootGi.toList [] h2
  | fail =>
    simpa using walk_tree_children_perm ff (sizeOf rootChildren) rootChildren
      le_rfl rootGi.toList [] h2

/-- Neither child of the mixed root is a directory matched by its own
.gitignore: there are no matchers in the tree at all. -/
theorem rootMixedNoSelfMatch :
    ∀ c ∈ mixedChildren, noSelfMatch ffPlain.basePath [] c = true := by
  intro c hc
  simp only [mixedChildren, List.mem_cons, List.not_mem_nil, or_false] at hc
  rcases hc with h | h <;> subst h
  · exact noSelfMatch_file _ _ _ _ _
  · rw [noSelfMatch_dir]
    simp [noSelfMatch_file]

/-- The no-rule filter does not exclude its traversal root. -/
theorem rootMixedIncluded :
    (IsExcluded ffPlain [] dirDirEntry (Option.toList none)).isExcludedB = false := by
  decide

/-- C2: tree/content agreement on membership. Amended: a relative path is
in the content output precisely when it is among the files of the rendered
tree, PROVIDED the decision engine does not exclude the traversal root
itself (the walk filters the root, the tree builder never does) and no
directory's own .gitignore matches that directory's path (the walk hands
the engine the directory's own matcher when deciding the directory, the
tree builder only the ancestors' matchers). -/
theorem C2_tree_content_membership_agree (ff : FileFilter) (rootGi : Option GitIgnore)
    (rootChildren : List FSEntry)
    (h1 : (IsExcluded ff [] dirDirEntry rootGi.toList).isExcludedB = false)
    (h2 : ∀ c ∈ rootChildren, noSelfMatch ff.basePath [] c = true)
    (p : List String) :
    p ∈ processWalk ff rootGi rootChildren ↔ p ∈ treeFiles ff rootGi rootChildren :=
  (processWalk_treeFiles_perm ff rootGi rootChildren h1 h2).mem_iff

/-- Witness for C2 at a concrete input: a.txt is reported by both the walk
and the tree of the mixed root under the no-rule filter. -/
theorem C2_tree_content_membership_agree_witness :
    (["a.txt"] ∈ processWalk ffPlain none mixedChildren ↔
      ["a.txt"] ∈ treeFiles ffPlain none mixedChildren) :=
  C2_tree_content_membership_agree ffPlain none mixedChildren rootMixedIncluded
    rootMixedNoSelfMatch ["a.txt"]

/-- The unconditional membership agreement fails: a traversal root whose
own base name is an excluded directory name (here a root named build)
produces an empty content dump, while the rendered tree still lists the
root's file a.txt. -/
theorem C2_root_excluded_counterexample :
    ["a.txt"] ∈ treeFiles ffBuildRoot none buildRootChildrenInput ∧
    ["a.txt"] ∉ processWalk ffBuildRoot none buildRootChildrenInput := by
  have hw : processWalk ffBuildRoot none buildRootChildrenInput = [] := by
    have hD : IsExcluded ffBuildRoot [] dirDirEntry [] = .ok (some .dirName) true := by
      decide
    simp [processWalk, Option.toList, hD]
  have ht : treeFiles ffBuildRoot none buildRootChildrenInput = [["a.txt"]] := by
    have hD2 : IsExcluded ffBuildRoot ["a.txt"] (fileDirEntry 10 0o644) []
        = .ok none false := by decide
    simp [treeFiles, buildRootChildren, buildRootChildrenInput, sortForTree,
      List.insertionSort, List.orderedInsert, buildChild_file, hD2, nodeFiles_leaf,
      Option.toList]
  rw [hw, ht]
  simp

/-- C5: order agreement of the content blocks with the tree. Amended: the
two listings agree as multisets (same files, same multiplicities) under
the side conditions of C2, but NOT in order: the walk emits contents in
os.ReadDir byte-order while the tree displays directories first and sorts
case-insensitively, as the counterexample shows. -/
theorem C5_content_tree_same_multiset (ff : FileFilter) (rootGi : Option GitIgnore)
    (rootChildren : List FSEntry)
    (h1 : (IsExcluded ff [] dirDirEntry rootGi.toList).isExcludedB = false)
    (h2 : ∀ c ∈ rootChildren, noSelfMatch ff.basePath [] c = true) :
    List.Perm (processWalk ff rootGi rootChildren)
      (treeFiles ff rootGi rootChildren) :=
  processWalk_treeFiles_perm ff rootGi rootChildren h1 h2

/-- Witness for C5 at a concrete input: the walk and the tree of the mixed
root list the same files up to order. -/
theorem C5_content_tree_same_multiset_witness :
    List.Perm (processWalk ffPlain none mixedChildren)
      (treeFiles ffPlain none mixedChildren) :=
  C5_content_tree_same_multiset ffPlain none mixedChildren rootMixedIncluded
    rootMixedNoSelfMatch

/-- The order equality fails: with one file a.txt and one directory b
holding c.txt, the walk emits a.txt first (byte order), the tree lists the
directory first, so the two sequences differ. -/
theorem C5_order_counterexample :
    processWalk ffPlain none mixedChildren = [["a.txt"], ["b", "c.txt"]] ∧
    treeFiles ffPlain none mixedChildren = [["b", "c.txt"], ["a.txt"]] ∧
    processWalk ffPlain none mixedChildren ≠ treeFiles ffPlain none mixedChildren := by
  have hw : processWalk ffPlain none mixedChildren = [["a.txt"], ["b", "c.txt"]] := by
    simp +decide [processWalk, mixedChildren, walkEntry_dir, walkEntry_file,
      readDirSorted, List.insertionSort, List.orderedInsert, readDirLe, charLe,
      IsExcluded, FSEntry.name, fileDirEntry, dirDirEntry]
  have ht : treeFiles ffPlain none mixedChildren = [["b", "c.txt"], ["a.txt"]] := by
    have hDa : IsExcluded ffPlain ["a.txt"] (fileDirEntry 10 0o644) []
        = .ok none false := by decide
    have hDb : IsExcluded ffPlain ["b"] dirDirEntry [] = .ok none false := by decide
    have hDc : IsExcluded ffPlain ["b", "c.txt"] (fileDirEntry 20 0o644) []
        = .ok none false := by decide
    simp +decide [treeFiles, buildRootChildren, mixedChildren, sortForTree,
      List.insertionSort, List.orderedInsert, treeLe, treeLess, charLt, lowerStr,
      FSEntry.isDirB, FSEntry.name, buildChild_file, buildChild_dir,
      hDa, hDb, hDc, nodeFiles_leaf, nodeFiles_dir, Option.toList,
      List.filterMap_cons, List.filterMap_nil, List.flatMap_cons, List.flatMap_nil]
  refine ⟨hw, ht, ?_⟩
  rw [hw, ht]
  decide

/-! ## Order lemmas and the rendering shape of the tree -/

/-- Strict byte order is the complement of the reversed weak order. -/
theorem charLt_eq_not_charLe : ∀ x y : List Char, charLt x y = !(charLe y x)
  | [], [] => rfl
  | [], _ :: _ => rfl
  | _ :: _, [] => rfl
  | a :: as, b :: bs => by
    simp only [charLt, charLe, beq_iff_eq]
    by_cases hab : a = b
    · obtain rfl := hab
      rw [if_pos rfl, if_pos rfl]
      exact charLt_eq_not_charLe as bs
    · rw [if_neg hab, if_neg (Ne.symm hab)]
      rcases lt_trichotomy a b with h | h | h
      · simp [h, lt_asymm h]
      · exact absurd h hab
      · simp [h, lt_asymm h]

/-- The byte order on character lists is transitive. -/
theorem charLe_trans : ∀ x y z : List Char,
    charLe x y = true → charLe y z = true → charLe x z = true
  | [], _, _, _, _ => rfl
  | _ :: _, [], _, h1, _ => by simp [charLe] at h1
  | _ :: _, _ :: _, [], _, h2 => by simp [charLe] at h2
  | a :: as, b :: bs, c :: cs, h1, h2 => by
    simp only [charLe, beq_iff_eq] at h1 h2 ⊢
    by_cases hab : a = b
    · obtain rfl := hab
      rw [if_pos rfl] at h1
      by_cases hac : a = c
      · obtain rfl := hac
        rw [if_pos rfl] at h2 ⊢
        exact charLe_trans as bs cs h1 h2
      · rw [if_neg hac] at h2 ⊢
        exact h2
    · rw [if_neg hab] at h1
      have hab' : a < b := of_decide_eq_true h1
      by_cases hbc : b = c
      · obtain rfl := hbc
        rw [if_neg hab]
        exact decide_eq_true hab'
      · rw [if_neg hbc] at h2
        have hbc' : b < c := of_decide_eq_true h2
        have hac' : a < c := lt_trans hab' hbc'
        rw [if_neg (ne_of_lt hac')]
        exact decide_eq_true hac'

/-- The byte order on character lists is total. -/
theorem charLe_total : ∀ x y : List Char, charLe x y = true ∨ charLe y x = true
  | [], _ => Or.inl rfl
  | _ :: _, [] => Or.inr rfl
  | a :: as, b :: bs => by
    simp only [charLe, beq_iff_eq]
    by_cases hab : a = b
    · obtain rfl := hab
      rw [if_pos rfl, if_pos rfl]
      exact charLe_total as bs
    · rw [if_neg hab, if_neg (Ne.symm hab)]
      rcases lt_trichotomy a b with h | h | h
      · exact Or.inl (decide_eq_true h)
      · exact absurd h hab
      · exact Or.inr (decide_eq_true h)

/-- The tree builder's child order is total. -/
theorem treeLe_total (a b : FSEntry) : treeLe a b ∨ treeLe b a := by
  cases ha : a.isDirB <;> cases hb : b.isDirB <;>
    simp [treeLe, treeLess, ha, hb, charLt_eq_not_charLe] <;>
    exact charLe_total _ _

/-- The tree builder's child order is transitive. -/
theorem treeLe_trans (a b c : FSEntry) (h1 : treeLe a b) (h2 : treeLe b c) :
    treeLe a c := by
  cases ha : a.isDirB <;> cases hb : b.isDirB <;> cases hc : c.isDirB <;>
    simp_all [treeLe, treeLess, charLt_eq_not_charLe] <;>
    exact charLe_trans _ _ _ h1 h2

instance : IsTotal FSEntry treeLe := ⟨treeLe_total⟩

instance : IsTrans FSEntry treeLe := ⟨treeLe_trans⟩

/-- A single child is rendered as the corner block. -/
theorem writeNodeRecursive_singleton (pre : String) (c : TreeNode) :
    writeNodeRecursive pre [c] = specCornerBlock pre c := by
  rw [writeNodeRecursive]
  rfl

/-- A non-last child contributes its branch block, then the rest. -/
theorem writeNodeRecursive_cons_cons (pre : String) (c c2 : TreeNode)
    (rest : List TreeNode) :
    writeNodeRecursive pre (c :: c2 :: rest) =
      specBranchBlock pre c ++ writeNodeRecursive pre (c2 :: rest) := by
  rw [writeNodeRecursive]
  rfl

/-- Serialization of a child list: every non-last child is a branch block,
the last child a corner block. -/
theorem writeNodeRecursive_blocks (pre : String) :
    ∀ (cs : List TreeNode) (c : TreeNode),
      writeNodeRecursive pre (cs ++ [c]) =
        concatBlocks (cs.map (specBranchBlock pre)) ++ specCornerBlock pre c := by
  intro cs
  induction cs with
  | nil =>
    intro c
    simp [writeNodeRecursive_singleton, concatBlocks]
  | cons d ds ih =>
    intro c
    cases hds : ds ++ [c] with
    | nil => simp at hds
    | cons y t =>
      rw [List.cons_append, hds, writeNodeRecursive_cons_cons, ← hds, ih c]
      simp [concatBlocks, String.append_assoc]

/-- A node built for an entry carries the entry's name and directory
flag. -/
theorem buildChild_name_isDir (ff : FileFilter) (cur : List GitIgnore)
    (rel : List String) (e : FSEntry) (node : TreeNode)
    (h : buildChild ff cur rel e = some node) :
    node.name = e.name ∧ node.isDir = e.isDirB := by
  cases e with
  | file n size perm =>
    rw [buildChild_file] at h
    split at h
    · injection h with h'
      subst h'
      exact ⟨rfl, rfl⟩
    · exact Option.noConfusion h
  | dir n gi cs =>
    rw [buildChild_dir] at h
    split at h
    · injection h with h'
      subst h'
      exact ⟨rfl, rfl⟩
    · exact Option.noConfusion h

/-- The display order transfers from entries to the nodes built for
them. -/
theorem nodeLe_of_treeLe (a b : FSEntry) (x y : TreeNode)
    (hx : x.name = a.name ∧ x.isDir = a.isDirB)
    (hy : y.name = b.name ∧ y.isDir = b.isDirB)
    (h : treeLe a b) : nodeLe x y := by
  obtain ⟨hxn, hxd⟩ := hx
  obtain ⟨hyn, hyd⟩ := hy
  unfold nodeLe
  unfold treeLe treeLess at h
  rw [hxn, hxd, hyn, hyd]
  cases hA : a.isDirB <;> cases hB : b.isDirB <;> simp_all

/-- The node list built from any child list is in display order. -/
theorem sortedNodes (ff : FileFilter) (cur : List GitIgnore) (rel : List String)
    (cs : List FSEntry) :
    List.Sorted nodeLe ((sortForTree cs).filterMap (buildChild ff cur rel)) := by
  have hs : List.Sorted treeLe (sortForTree cs) :=
    List.sorted_insertionSort treeLe cs
  exact hs.filterMap (buildChild ff cur rel)
    (fun a a' hr x hx y hy =>
      nodeLe_of_treeLe a a' x y
        (buildChild_name_isDir ff cur rel a x (Option.mem_def.mp hx))
        (buildChild_name_isDir ff cur rel a' y (Option.mem_def.mp hy)) hr)

/-- Every node the tree builder produces is recursively sorted in display
order. -/
theorem buildChild_sortedTree (ff : FileFilter) :
    ∀ (N : Nat) (e : FSEntry), sizeOf e ≤ N →
      ∀ (cur : List GitIgnore) (rel : List String) (node : TreeNode),
        buildChild ff cur rel e = some node → SortedTree node := by
  intro N
  induction N with
  | zero =>
    intro e hsz
    exfalso
    cases e with
    | file n size perm => simp only [FSEntry.file.sizeOf_spec] at hsz; omega
    | dir n gi cs => simp only [FSEntry.dir.sizeOf_spec] at hsz; omega
  | succ N ih =>
    intro e hsz cur rel node h
    cases e with
    | file n size perm =>
      rw [buildChild_file] at h
      split at h
      · injection h with h'
        subst h'
        exact SortedTree.mk n false [] List.sorted_nil (by simp)
      · exact Option.noConfusion h
    | dir n gi cs =>
      rw [buildChild_dir] at h
      split at h
      · injection h with h'
        subst h'
        refine SortedTree.mk _ _ _ ?_ ?_
        · exact sortedNodes ff (cur ++ gi.toList) (rel ++ [n]) cs
        · intro c hc
          obtain ⟨e', he'mem, he'⟩ := List.mem_filterMap.mp hc
          have hszcs : sizeOf e' ≤ N := by
            have h1 : sizeOf e' < sizeOf cs :=
              List.sizeOf_lt_of_mem
                ((List.perm_insertionSort treeLe cs).mem_iff.mp he'mem)
            have h2 : sizeOf cs < sizeOf (FSEntry.dir n gi cs) := by
              simp only [FSEntry.dir.sizeOf_spec]
              omega
            omega
          exact ih e' hszcs (cur ++ gi.toList) (rel ++ [n]) c he'
      · exact Option.noConfusion h

/-- C9: tree rendering shape. Every directory level of the rendered tree
is sorted directories-first then case-insensitively by name (recursively,
per SortedTree); the serialization renders every non-last child as a
branch-connector block passing the continuation indent to its children and
the last child as a corner-connector block passing the blank indent; and
the root name is written unprefixed on the first line, before the
serialized children. -/
theorem C9_tree_rendering_shape (ff : FileFilter) (rootGi : Option GitIgnore)
    (rootChildren : List FSEntry) :
    BuildTreeString ff rootGi rootChildren
      = ff.basePath.getLastD "" ++ "\n"
        ++ writeNodeRecursive "" (buildRootChildren ff rootGi rootChildren) ∧
    (∀ (pre : String) (cs : List TreeNode) (c : TreeNode),
      writeNodeRecursive pre (cs ++ [c])
        = concatBlocks (cs.map (specBranchBlock pre)) ++ specCornerBlock pre c) ∧
    List.Sorted nodeLe (buildRootChildren ff rootGi rootChildren) ∧
    (∀ node ∈ buildRootChildren ff rootGi rootChildren, SortedTree node) := by
  refine ⟨rfl, ?_, ?_, ?_⟩
  · intro pre cs c
    exact writeNodeRecursive_blocks pre cs c
  · exact sortedNodes ff rootGi.toList [] rootChildren
  · intro node hnode
    simp only [buildRootChildren] at hnode
    obtain ⟨e, hemem, he⟩ := List.mem_filterMap.mp hnode
    exact buildChild_sortedTree ff (sizeOf e) e le_rfl rootGi.toList [] node he

/-- Witness for C9 at a concrete input: the block decomposition of the
mixed root two-node level, the sortedness of the built root children, and
the recursive sortedness of the directory node b. -/
theorem C9_tree_rendering_shape_witness :
    writeNodeRecursive ""
        ([TreeNode.mk "b" true [TreeNode.mk "c.txt" false []]]
          ++ [TreeNode.mk "a.txt" false []])
      = concatBlocks
          ([TreeNode.mk "b" true [TreeNode.mk "c.txt" false []]].map
            (specBranchBlock ""))
        ++ specCornerBlock "" (TreeNode.mk "a.txt" false []) ∧
    List.Sorted nodeLe (buildRootChildren ffPlain none mixedChildren) ∧
    SortedTree (TreeNode.mk "b" true [TreeNode.mk "c.txt" false []]) := by
  have hDa : IsExcluded ffPlain ["a.txt"] (fileDirEntry 10 0o644) []
      = .ok none false := by decide
  have hDb : IsExcluded ffPlain ["b"] dirDirEntry [] = .ok none false := by decide
  have hDc : IsExcluded ffPlain ["b", "c.txt"] (fileDirEntry 20 0o644) []
      = .ok none false := by decide
  have hbrc : buildRootChildren ffPlain none mixedChildren
      = [TreeNode.mk "b" true [TreeNode.mk "c.txt" false []],
         TreeNode.mk "a.txt" false []] := by
    simp +decide [buildRootChildren, mixedChildren, sortForTree,
      List.insertionSort, List.orderedInsert, treeLe, treeLess, charLt, lowerStr,
      FSEntry.isDirB, FSEntry.name, buildChild_file, buildChild_dir,
      hDa, hDb, hDc, Option.toList, List.filterMap_cons, List.filterMap_nil]
  refine ⟨?_, ?_, ?_⟩
  · exact (C9_tree_rendering_shape ffPlain none mixedChildren).2.1 "" _ _
  · exact (C9_tree_rendering_shape ffPlain none mixedChildren).2.2.1
  · exact (C9_tree_rendering_shape ffPlain none mixedChildren).2.2.2 _
      (by rw [hbrc]; simp)


end C2C
